import Mathlib

/-!
Verification of the FASTQ parsing core of `rust-fastq-parser`.

Bytes are modelled as `Nat` (values of Rust `u8`; no arithmetic here can
overflow a `u8`-derived quantity, so no wrap-around modelling is needed).
Byte regions are `List Nat`.  Rust loops whose cursor jumps by variable
amounts are modelled with an explicit fuel argument; every wrapper passes
`data.length + 1` fuel, which is an upper bound on the iteration count
because each iteration strictly advances the cursor.
-/

deriving instance DecidableEq for Except

namespace FastqProof

abbrev Byte := Nat

/-- Model of Rust `u8::is_ascii_whitespace`: space, tab, newline, form feed,
carriage return. -/
def isWs (b : Byte) : Bool :=
  b == 32 || b == 9 || b == 10 || b == 12 || b == 13

/-- Index of the first occurrence of `t` in `l` (scalar reference scan;
semantics of `memchr::memchr` and of `Iterator::position`). -/
def firstIdx (l : List Byte) (t : Byte) : Option Nat :=
  match l with
  | [] => none
  | b :: bs => if b == t then some 0 else (firstIdx bs t).map (· + 1)

/-- Model of `simd::find_char` (fallback path, src/simd.rs lines 166-176):
`memchr::memchr(target, &data[start..]).map(|i| start + i)`. -/
def find_char (data : List Byte) (t : Byte) (start : Nat) : Option Nat :=
  (firstIdx (data.drop start) t).map (start + ·)

/-- Chunk loop of `simd::find_char_avx2` (src/simd.rs lines 141-164).
The 32-byte SIMD compare plus `movemask`/`trailing_zeros` returns the index
of the first byte of the chunk equal to the target; the remainder is scanned
with a scalar `position`.  The fuel argument only bounds the recursion; the
wrapper passes the region length, which suffices since each step consumes a
32-byte chunk. -/
def avxGo : Nat → List Byte → Byte → Option Nat
  | 0, s, t => firstIdx s t
  | fuel + 1, s, t =>
    if 32 ≤ s.length then
      match firstIdx (s.take 32) t with
      | some i => some i
      | none => (avxGo fuel (s.drop 32) t).map (· + 32)
    else firstIdx s t

/-- Model of `simd::find_char_avx2`: runs the chunked scan on `data[start..]`
and offsets the result by `start`. -/
def find_char_avx2 (data : List Byte) (t : Byte) (start : Nat) : Option Nat :=
  (avxGo data.length (data.drop start) t).map (start + ·)

/-- Byte at an index (Rust `data[i]`; all in-bounds in the modelled paths). -/
def byteAt (data : List Byte) (i : Nat) : Byte :=
  data.getD i 0

/-- Contiguous sub-range `data[a..b]` of a byte region. -/
def slice (data : List Byte) (a b : Nat) : List Byte :=
  (data.drop a).take (b - a)

/-- Errors of src/error.rs that the in-memory parser can produce
(`Io` and the validation-only variants are never raised by `parse_record`). -/
inductive FastqError where
  | unexpectedEof : FastqError
  | invalidHeader (line : Nat) : FastqError
  | invalidSeparator (line : Nat) : FastqError
  | lengthMismatch (seqLen qualLen : Nat) : FastqError
deriving DecidableEq

/-- Borrowed record of src/record.rs (the lazily cached `quality_encoding`
field starts as `None` on every record built by the parser and is omitted). -/
structure Record where
  id : List Byte
  desc : Option (List Byte)
  seq : List Byte
  qual : List Byte
deriving DecidableEq

/-- Quality-encoding classification of src/record.rs. -/
inductive QualityEncoding where
  | phred33 : QualityEncoding
  | phred64 : QualityEncoding
  | unknown : QualityEncoding
deriving DecidableEq

/-- Minimum byte of a quality string, defaulting to `b'!'` = 33 when empty
(`qual_string.iter().min().copied().unwrap_or(b'!')`). -/
def minByte (qs : List Byte) : Byte :=
  match qs with
  | [] => 33
  | b :: bs => bs.foldl Nat.min b

/-- Maximum byte of a quality string, defaulting to `b'~'` = 126 when empty. -/
def maxByte (qs : List Byte) : Byte :=
  match qs with
  | [] => 126
  | b :: bs => bs.foldl Nat.max b

/-- Model of `QualityEncoding::detect` (src/record.rs lines 11-26).
`'!'` = 33, `'~'` = 126, `';'` = 59, `'@'` = 64, `'h'` = 104. -/
def QualityEncoding.detect (qs : List Byte) : QualityEncoding :=
  let minQ := minByte qs
  let maxQ := maxByte qs
  if minQ < 33 ∨ 126 < maxQ then .unknown
  else if minQ < 59 then .phred33
  else if 64 ≤ minQ ∧ 104 < maxQ then .phred64
  else .phred33

/-- Parser state of src/parser.rs: the byte region, the cursor and the
1-based line counter. -/
structure Parser where
  data : List Byte
  pos : Nat
  line : Nat
deriving DecidableEq

/-- Model of `Parser::read_line` (src/parser.rs lines 40-60): read up to the
next newline (stripping a trailing `'\r'` = 13) or to the end of the region;
`UnexpectedEof` when the cursor is already at the end. -/
def read_line (p : Parser) : Except FastqError (List Byte × Parser) :=
  let start := p.pos
  match find_char p.data 10 p.pos with
  | some e =>
    let lineEnd := if e > start ∧ byteAt p.data (e - 1) = 13 then e - 1 else e
    .ok (slice p.data start lineEnd, { p with pos := e + 1, line := p.line + 1 })
  | none =>
    if p.pos < p.data.length then
      .ok (slice p.data start p.data.length, { p with pos := p.data.length })
    else
      .error .unexpectedEof

/-- Model of `Parser::parse_header` (src/parser.rs lines 206-215): split the
header body at the first space (32) if any, otherwise at the first tab (9),
otherwise keep the whole body as the id with no description. -/
def parse_header (header : List Byte) : Except FastqError (List Byte × Option (List Byte)) :=
  match find_char header 32 0 with
  | some spacePos => .ok (header.take spacePos, some (header.drop (spacePos + 1)))
  | none =>
    match find_char header 9 0 with
    | some tabPos => .ok (header.take tabPos, some (header.drop (tabPos + 1)))
    | none => .ok (header, none)

/-- Reverse scan `for i in (start..stop).rev()` of `read_sequence`: the
greatest index in `[start, stop)` holding a non-whitespace byte. -/
def lastNonWs (data : List Byte) (start : Nat) : Nat → Option Nat
  | 0 => none
  | stop + 1 =>
    if stop < start then none
    else if isWs (byteAt data stop) = false then some stop
    else lastNonWs data start stop

/-- Forward scan `for i in start..stop` of `read_sequence`: whether some index
in `[start, stop)` holds a non-whitespace byte. -/
def anyNonWs (data : List Byte) (start : Nat) : Nat → Bool
  | 0 => false
  | stop + 1 =>
    if stop < start then false
    else anyNonWs data start stop || (isWs (byteAt data stop) = false)

/-- The `while let Some(newline_pos) = find_char(..)` loop of
`Parser::read_sequence` (src/parser.rs lines 113-139), returning the final
`(seq_end, pos, line)`.  Each iteration moves `pos` past a newline, so the
iteration count is bounded by the region length and the wrapper's fuel
`data.length + 1` is never exhausted. -/
def readSeqLoop (data : List Byte) (startPos : Nat) :
    Nat → Nat → Nat → Nat → Nat × Nat × Nat
  | 0, pos, line, seqEnd => (seqEnd, pos, line)
  | fuel + 1, pos, line, seqEnd =>
    match find_char data 10 pos with
    | none => (seqEnd, pos, line)
    | some nl =>
      let pos' := nl + 1
      let line' := line + 1
      if pos' < data.length ∧ byteAt data pos' = 43 then
        let se1 :=
          match lastNonWs data startPos nl with
          | some i => i + 1
          | none => seqEnd
        let se2 :=
          if se1 = startPos then (if anyNonWs data startPos nl then nl else se1) else se1
        (se2, pos', line')
      else
        readSeqLoop data startPos fuel pos' line' nl

/-- Model of `Parser::read_sequence` (src/parser.rs lines 108-146). -/
def read_sequence (p : Parser) : Except FastqError (List Byte × Parser) :=
  let start := p.pos
  let r := readSeqLoop p.data start (p.data.length + 1) p.pos p.line start
  if r.1 = start then .error .unexpectedEof
  else .ok (slice p.data start r.1, { p with pos := r.2.1, line := r.2.2 })

/-- The counting scan of `Parser::read_quality` (src/parser.rs lines 154-166)
over `data[start..]`.  Arguments: remaining slice, absolute index of its head,
count so far, current `quality_end`, newlines seen.  Returns
`(non_ws_count, quality_end, newlines, reached)` where `reached` records
whether the loop broke with `self.pos = quality_end`. -/
def rqScan (expected : Nat) : List Byte → Nat → Nat → Nat → Nat → Nat × Nat × Nat × Bool
  | [], _, cnt, qEnd, nls => (cnt, qEnd, nls, false)
  | b :: bs, i, cnt, qEnd, nls =>
    if b = 10 then rqScan expected bs (i + 1) cnt qEnd (nls + 1)
    else if isWs b = false then
      let cnt' := cnt + 1
      let qEnd' := i + 1
      if cnt' = expected then (cnt', qEnd', nls, true)
      else rqScan expected bs (i + 1) cnt' qEnd' nls
    else rqScan expected bs (i + 1) cnt qEnd nls

/-- The trailing-whitespace loop of `Parser::read_quality` (src/parser.rs
lines 176-183): consume whitespace, stopping right after a first newline.
Returns `(bytes consumed, newlines seen)`. -/
def skipTrailingWs : List Byte → Nat × Nat
  | [] => (0, 0)
  | b :: bs =>
    if isWs b then
      if b = 10 then (1, 1)
      else
        let r := skipTrailingWs bs
        (r.1 + 1, r.2)
    else (0, 0)

/-- Model of `Parser::read_quality` (src/parser.rs lines 148-186). -/
def read_quality (p : Parser) (expected : Nat) : Except FastqError (List Byte × Parser) :=
  let start := p.pos
  let r := rqScan expected (p.data.drop start) start 0 start 0
  let cnt := r.1
  let qEnd := r.2.1
  let nls := r.2.2.1
  let reached := r.2.2.2
  if cnt ≠ expected then .error (.lengthMismatch expected cnt)
  else
    let pos1 := if reached then qEnd else start
    let sk := skipTrailingWs (p.data.drop pos1)
    .ok (slice p.data start qEnd,
         { p with pos := pos1 + sk.1, line := p.line + nls + sk.2 })

/-- The leading-whitespace loop of `Parser::parse_record` (src/parser.rs
lines 67-72) on `data[pos..]`: `(bytes consumed, newlines seen)`. -/
def skipWsLoop : List Byte → Nat × Nat
  | [] => (0, 0)
  | b :: bs =>
    if isWs b then
      let r := skipWsLoop bs
      (r.1 + 1, r.2 + (if b = 10 then 1 else 0))
    else (0, 0)

/-- Model of `Parser::parse_record` (src/parser.rs lines 62-106). -/
def parse_record (p : Parser) : Except FastqError (Option Record × Parser) :=
  if p.data.length ≤ p.pos then .ok (none, p)
  else
    let sk := skipWsLoop (p.data.drop p.pos)
    let p1 : Parser := { p with pos := p.pos + sk.1, line := p.line + sk.2 }
    if p1.data.length ≤ p1.pos then .ok (none, p1)
    else
      match read_line p1 with
      | .error e => .error e
      | .ok (headerLine, p2) =>
        if headerLine.isEmpty then .ok (none, p2)
        else if headerLine.headD 0 ≠ 64 then .error (.invalidHeader (p2.line - 1))
        else
          match parse_header (headerLine.drop 1) with
          | .error e => .error e
          | .ok (recId, desc) =>
            match read_sequence p2 with
            | .error e => .error e
            | .ok (seq, p3) =>
              match read_line p3 with
              | .error e => .error e
              | .ok (sepLine, p4) =>
                if sepLine.isEmpty ∨ sepLine.headD 0 ≠ 43 then
                  .error (.invalidSeparator (p4.line - 1))
                else
                  match read_quality p4 seq.length with
                  | .error e => .error e
                  | .ok (qual, p5) =>
                    if seq.length ≠ qual.length then
                      .error (.lengthMismatch seq.length qual.length)
                    else .ok (some ⟨recId, desc, seq, qual⟩, p5)

/-- Model of `Iterator::next` for `Parser` (src/parser.rs lines 218-228):
`Ok(Some(r))` yields the record, `Ok(None)` and `Err(_)` both end iteration. -/
def nextRecord (p : Parser) : Option (Record × Parser) :=
  match parse_record p with
  | .ok (some r, p') => some (r, p')
  | _ => none

/-- Collect all records an iterator over `Parser` yields.  Each yielded record
strictly advances the cursor, so `data.length + 1` fuel always suffices. -/
def collectRecords : Nat → Parser → List Record
  | 0, _ => []
  | fuel + 1, p =>
    match nextRecord p with
    | some (r, p') => r :: collectRecords fuel p'
    | none => []

/-- `CHUNK_SIZE` of src/parallel.rs. -/
def CHUNK_SIZE : Nat := 1048576

/-- The inner `while end < len` candidate-advance loop of
`ParallelParser::find_record_boundaries` (src/parallel.rs lines 122-135):
look for the next `'@'` = 64 at or after `endPos` whose preceding byte is a
newline; no trial parse is attempted from the candidate.  Fuel is bounded by
the region length since each retry strictly advances the search start. -/
def boundaryAdvance (data : List Byte) : Nat → Nat → Nat
  | 0, endPos => endPos
  | fuel + 1, endPos =>
    if endPos < data.length then
      match find_char data 64 endPos with
      | some atPos =>
        if 0 < atPos ∧ byteAt data (atPos - 1) = 10 then atPos
        else boundaryAdvance data fuel (atPos + 1)
      | none => data.length
    else endPos

/-- The outer chunking loop of `ParallelParser::find_record_boundaries`
(src/parallel.rs lines 117-142). -/
def frbLoop (data : List Byte) (chunkSize : Nat) : Nat → Nat → List (Nat × Nat)
  | 0, _ => []
  | fuel + 1, start =>
    if start < data.length then
      let end0 := min (start + chunkSize) data.length
      if end0 < data.length then
        let e := boundaryAdvance data (data.length + 1) end0
        (start, e) :: frbLoop data chunkSize fuel e
      else [(start, data.length)]
    else []

/-- Model of `ParallelParser::find_record_boundaries`
(src/parallel.rs lines 105-145). -/
def find_record_boundaries (data : List Byte) (numThreads : Nat) : List (Nat × Nat) :=
  if data.length = 0 then []
  else frbLoop data (max (data.length / numThreads) CHUNK_SIZE) (data.length + 1) 0

/-- Records produced by one worker of `ParallelParser::parse`
(src/parallel.rs lines 42-52): run `Parser` as an iterator over the chunk
slice; `Iterator::next` maps `Err(_)` to `None`, so a chunk parse error ends
the chunk silently. -/
def chunkRecords (data : List Byte) (c : Nat × Nat) : List Record :=
  let sl := slice data c.1 c.2
  collectRecords (sl.length + 1) ⟨sl, 0, 1⟩

/-- Model of `ParallelParser::parse` (src/parallel.rs lines 37-63): the
per-chunk closure always returns `Ok(records)` (errors were already dropped by
the iterator), and `try_fold`/`try_reduce` concatenate the chunk vectors, so
the overall result is always `Ok`. -/
def parallelParse (data : List Byte) (numThreads : Nat) : Except FastqError (List Record) :=
  .ok (((find_record_boundaries data numThreads).map (chunkRecords data)).flatten)

/-- Number of non-whitespace bytes in a region (used to state the
`LengthMismatch` claim). -/
def countNonWs (l : List Byte) : Nat :=
  (l.filter (fun b => isWs b = false)).length

/-- Header-line bytes of a record: `'@'` = 64, then the id, then optionally a
space and the description. -/
def encHeader (r : Record) : List Byte :=
  64 :: r.id ++ (match r.desc with | none => [] | some d => 32 :: d)

/-- A record in strict four-line FASTQ shape, without the final newline:
header line, newline, sequence line, `"\n+\n"`, quality bytes. -/
def encCore (r : Record) : List Byte :=
  encHeader r ++ 10 :: r.seq ++ 10 :: 43 :: 10 :: r.qual

/-- A full encoded record, final newline included. -/
def encRec (r : Record) : List Byte :=
  encCore r ++ [10]

/-- Concatenation of whole encoded records (each ending in a newline). -/
def encodeAll (rs : List Record) : List Byte :=
  (rs.map encRec).flatten

/-- Concatenation of encoded records with the final record's trailing newline
omitted. -/
def encodeAllNoFinal : List Record → List Byte
  | [] => []
  | [r] => encCore r
  | r :: rest => encRec r ++ encodeAllNoFinal rest

/-- Well-formedness of a record for the round-trip statements: a non-empty
whitespace-free id, a description free of newline and carriage return, a
non-empty single-line whitespace-free sequence, and a whitespace-free quality
string of the same length. -/
def WfRec (r : Record) : Prop :=
  r.id ≠ [] ∧ (∀ b ∈ r.id, isWs b = false) ∧
  (match r.desc with | none => True | some d => 10 ∉ d ∧ 13 ∉ d) ∧
  r.seq ≠ [] ∧ (∀ b ∈ r.seq, isWs b = false) ∧
  (∀ b ∈ r.qual, isWs b = false) ∧ r.qual.length = r.seq.length

instance (r : Record) : Decidable (WfRec r) := by
  unfold WfRec
  cases r.desc <;> exact inferInstance

/-- The bytes of `"@SEQ_1\nACGT\n+\nIII\n"` (scenario S5: truncated quality). -/
def s5Input : List Byte :=
  [64, 83, 69, 81, 95, 49, 10, 65, 67, 71, 84, 10, 43, 10, 73, 73, 73, 10]

/-- The bytes of `"@SEQ_1\nACGT\n+\n@III\n@SEQ_2\nTGCA\n+\nJJJJ\n"`
(scenario S6: a quality line starting with `'@'`). -/
def s6Input : List Byte :=
  [64, 83, 69, 81, 95, 49, 10, 65, 67, 71, 84, 10, 43, 10, 64, 73, 73, 73, 10,
   64, 83, 69, 81, 95, 50, 10, 84, 71, 67, 65, 10, 43, 10, 74, 74, 74, 74, 10]

/-- The bytes of `"@id\nAC\nGT\n+\nIIIII\n"` (a sequence wrapped over two
physical lines). -/
def wrappedInput : List Byte :=
  [64, 105, 100, 10, 65, 67, 10, 71, 84, 10, 43, 10, 73, 73, 73, 73, 73, 10]

/-- The bytes of `"@id\n\n+\n\n"` (a record with an empty sequence and an
empty quality string). -/
def emptySeqInput : List Byte :=
  [64, 105, 100, 10, 10, 43, 10, 10]

/-- The bytes of `"@id\n \n \n+\nI\n"` (a sequence region consisting only of
whitespace lines). -/
def wsSeqInput : List Byte :=
  [64, 105, 100, 10, 32, 10, 32, 10, 43, 10, 73, 10]

theorem firstIdx_append (a b : List Byte) (t : Byte) :
    firstIdx (a ++ b) t =
      match firstIdx a t with
      | some i => some i
      | none => (firstIdx b t).map (· + a.length) := by
  induction a with
  | nil =>
    simp only [List.nil_append, firstIdx, List.length_nil]
    cases firstIdx b t <;> simp
  | cons x xs ih =>
    simp only [List.cons_append, firstIdx, List.append_eq]
    by_cases hx : (x == t) = true
    · simp [hx]
    · simp only [hx, Bool.false_eq_true, if_false]
      rw [ih]
      cases hxs : firstIdx xs t with
      | some i => simp
      | none =>
        cases hb : firstIdx b t with
        | some j => simp [List.length_cons]; omega
        | none => simp

theorem firstIdx_eq_none_of_not_mem {l : List Byte} {t : Byte} (h : t ∉ l) :
    firstIdx l t = none := by
  induction l with
  | nil => rfl
  | cons x xs ih =>
    simp only [List.mem_cons, not_or] at h
    simp only [firstIdx]
    have hx : (x == t) = false := by
      simp only [beq_eq_false_iff_ne]
      exact fun hxt => h.1 hxt.symm
    simp [hx, ih h.2]

theorem avxGo_eq_firstIdx (fuel : Nat) :
    ∀ (s : List Byte) (t : Byte), s.length ≤ fuel → avxGo fuel s t = firstIdx s t := by
  induction fuel with
  | zero => intro s t _; rfl
  | succ n ih =>
    intro s t hlen
    simp only [avxGo]
    by_cases h32 : 32 ≤ s.length
    · simp only [h32, if_true]
      have hsplit : s = s.take 32 ++ s.drop 32 := (List.take_append_drop 32 s).symm
      have hlt : (s.take 32).length = 32 := by
        simp [List.length_take, Nat.min_eq_left h32]
      rw [show firstIdx s t = firstIdx (s.take 32 ++ s.drop 32) t by rw [← hsplit]]
      rw [firstIdx_append]
      have hdrop : (s.drop 32).length ≤ n := by
        simp only [List.length_drop]; omega
      cases hft : firstIdx (s.take 32) t with
      | some i => simp
      | none => rw [ih (s.drop 32) t hdrop, hlt]
    · simp [h32]

theorem firstIdx_some_spec {l : List Byte} {t : Byte} {i : Nat}
    (h : firstIdx l t = some i) :
    l[i]? = some t ∧ ∀ j, j < i → l[j]? ≠ some t := by
  induction l generalizing i with
  | nil => simp [firstIdx] at h
  | cons x xs ih =>
    simp only [firstIdx] at h
    by_cases hx : (x == t) = true
    · simp only [hx, if_true, Option.some.injEq] at h
      subst h
      have hxt : x = t := by simpa [beq_iff_eq] using hx
      refine ⟨by simp [hxt], ?_⟩
      intro j hj; omega
    · simp only [hx, Bool.false_eq_true, if_false] at h
      cases hxs : firstIdx xs t with
      | none => simp [hxs] at h
      | some k =>
        simp only [hxs, Option.map_some', Option.some.injEq] at h
        subst h
        obtain ⟨h1, h2⟩ := ih hxs
        refine ⟨by simpa using h1, ?_⟩
        intro j hj
        cases j with
        | zero =>
          have hxt : x ≠ t := by simpa [beq_eq_false_iff_ne] using hx
          simp [hxt]
        | succ j' =>
          simp only [List.getElem?_cons_succ]
          exact h2 j' (by omega)

theorem firstIdx_none_spec {l : List Byte} {t : Byte}
    (h : firstIdx l t = none) : ∀ j : Nat, l[j]? ≠ some t := by
  induction l with
  | nil => intro j; simp
  | cons x xs ih =>
    simp only [firstIdx] at h
    by_cases hx : (x == t) = true
    · simp [hx] at h
    · simp only [hx, Bool.false_eq_true, if_false, Option.map_eq_none'] at h
      intro j
      cases j with
      | zero =>
        have hxt : x ≠ t := by simpa [beq_eq_false_iff_ne] using hx
        simp [hxt]
      | succ j' =>
        simp only [List.getElem?_cons_succ]
        exact ih h j'

theorem byteAt_drop (data : List Byte) (p k : Nat) :
    byteAt data (p + k) = byteAt (data.drop p) k := by
  simp [byteAt, List.getD_eq_getElem?_getD, List.getElem?_drop]

theorem byteAt_append_right (a b : List Byte) (k : Nat) :
    byteAt (a ++ b) (a.length + k) = byteAt b k := by
  simp [byteAt, List.getD_eq_getElem?_getD, List.getElem?_append_right,
    Nat.le_add_right, Nat.add_sub_cancel_left]

theorem byteAt_append_left (a b : List Byte) (k : Nat) (h : k < a.length) :
    byteAt (a ++ b) k = byteAt a k := by
  simp [byteAt, List.getD_eq_getElem?_getD, List.getElem?_append_left h]

/-- C8: for every byte region, target byte and `start ≤ len(region)`, the
AVX2 path of `find_char` coincides with the fallback path, and the result is
the least index `i ≥ start` with `region[i] == target` (`none` when no such
index exists). -/
theorem c8_find_char_scalar_reference (data : List Byte) (t : Byte) (start : Nat)
    (h : start ≤ data.length) :
    find_char_avx2 data t start = find_char data t start ∧
    (∀ i, find_char data t start = some i →
      start ≤ i ∧ data[i]? = some t ∧ ∀ j, start ≤ j → j < i → data[j]? ≠ some t) ∧
    (find_char data t start = none → ∀ j, start ≤ j → data[j]? ≠ some t) := by
  refine ⟨?_, ?_, ?_⟩
  · unfold find_char_avx2 find_char
    rw [avxGo_eq_firstIdx data.length (data.drop start) t
      (by simp [List.length_drop])]
  · intro i hi
    unfold find_char at hi
    cases hfi : firstIdx (data.drop start) t with
    | none => simp [hfi] at hi
    | some k =>
      simp only [hfi, Option.map_some', Option.some.injEq] at hi
      subst hi
      obtain ⟨h1, h2⟩ := firstIdx_some_spec hfi
      rw [List.getElem?_drop] at h1
      refine ⟨Nat.le_add_right _ _, h1, ?_⟩
      intro j hj1 hj2
      have : (data.drop start)[j - start]? ≠ some t := h2 (j - start) (by omega)
      rw [List.getElem?_drop] at this
      have hjeq : start + (j - start) = j := by omega
      rwa [hjeq] at this
  · intro hn j hj
    unfold find_char at hn
    rw [Option.map_eq_none'] at hn
    have := firstIdx_none_spec hn (j - start)
    rw [List.getElem?_drop] at this
    have hjeq : start + (j - start) = j := by omega
    rwa [hjeq] at this

/-- Witness for C8 at a concrete region: both paths return the least index at
or after `start = 1` holding the target. -/
theorem c8_find_char_scalar_reference_witness :
    find_char_avx2 [65, 66, 10, 66] 66 1 = find_char [65, 66, 10, 66] 66 1 ∧
    find_char [65, 66, 10, 66] 66 1 = some 1 :=
  ⟨(c8_find_char_scalar_reference [65, 66, 10, 66] 66 1 (by decide)).1, by decide⟩

theorem foldl_min_le (bs : List Byte) : ∀ b : Byte, bs.foldl Nat.min b ≤ b := by
  induction bs with
  | nil => intro b; simp
  | cons x xs ih =>
    intro b
    calc (x :: xs).foldl Nat.min b = xs.foldl Nat.min (Nat.min b x) := rfl
    _ ≤ Nat.min b x := ih _
    _ ≤ b := Nat.min_le_left _ _

theorem foldl_min_le_mem (bs : List Byte) :
    ∀ (b x : Byte), x ∈ bs → bs.foldl Nat.min b ≤ x := by
  induction bs with
  | nil => intro b x hx; simp at hx
  | cons y ys ih =>
    intro b x hx
    rcases List.mem_cons.mp hx with rfl | hmem
    · calc (x :: ys).foldl Nat.min b = ys.foldl Nat.min (Nat.min b x) := rfl
      _ ≤ Nat.min b x := foldl_min_le ys _
      _ ≤ x := Nat.min_le_right _ _
    · exact ih _ x hmem

theorem foldl_min_mem (bs : List Byte) :
    ∀ b : Byte, bs.foldl Nat.min b = b ∨ bs.foldl Nat.min b ∈ bs := by
  induction bs with
  | nil => intro b; left; rfl
  | cons y ys ih =>
    intro b
    rcases ih (Nat.min b y) with heq | hmem
    · have hmm : Nat.min b y = b ∨ Nat.min b y = y := by
        rcases Nat.le_total b y with hle | hle
        · exact Or.inl (Nat.min_eq_left hle)
        · exact Or.inr (Nat.min_eq_right hle)
      rcases hmm with hb | hy
      · left
        calc (y :: ys).foldl Nat.min b = ys.foldl Nat.min (Nat.min b y) := rfl
        _ = Nat.min b y := heq
        _ = b := hb
      · right
        apply List.mem_cons.mpr; left
        calc (y :: ys).foldl Nat.min b = ys.foldl Nat.min (Nat.min b y) := rfl
        _ = Nat.min b y := heq
        _ = y := hy
    · right; exact List.mem_cons.mpr (Or.inr hmem)

theorem foldl_max_ge (bs : List Byte) : ∀ b : Byte, b ≤ bs.foldl Nat.max b := by
  induction bs with
  | nil => intro b; simp
  | cons x xs ih =>
    intro b
    calc b ≤ Nat.max b x := Nat.le_max_left _ _
    _ ≤ xs.foldl Nat.max (Nat.max b x) := ih _
    _ = (x :: xs).foldl Nat.max b := rfl

theorem foldl_max_ge_mem (bs : List Byte) :
    ∀ (b x : Byte), x ∈ bs → x ≤ bs.foldl Nat.max b := by
  induction bs with
  | nil => intro b x hx; simp at hx
  | cons y ys ih =>
    intro b x hx
    rcases List.mem_cons.mp hx with rfl | hmem
    · calc x ≤ Nat.max b x := Nat.le_max_right _ _
      _ ≤ ys.foldl Nat.max (Nat.max b x) := foldl_max_ge ys _
      _ = (x :: ys).foldl Nat.max b := rfl
    · exact ih _ x hmem

theorem foldl_max_mem (bs : List Byte) :
    ∀ b : Byte, bs.foldl Nat.max b = b ∨ bs.foldl Nat.max b ∈ bs := by
  induction bs with
  | nil => intro b; left; rfl
  | cons y ys ih =>
    intro b
    rcases ih (Nat.max b y) with heq | hmem
    · have hmm : Nat.max b y = b ∨ Nat.max b y = y := by
        rcases Nat.le_total b y with hle | hle
        · exact Or.inr (Nat.max_eq_right hle)
        · exact Or.inl (Nat.max_eq_left hle)
      rcases hmm with hb | hy
      · left
        calc (y :: ys).foldl Nat.max b = ys.foldl Nat.max (Nat.max b y) := rfl
        _ = Nat.max b y := heq
        _ = b := hb
      · right
        apply List.mem_cons.mpr; left
        calc (y :: ys).foldl Nat.max b = ys.foldl Nat.max (Nat.max b y) := rfl
        _ = Nat.max b y := heq
        _ = y := hy
    · right; exact List.mem_cons.mpr (Or.inr hmem)

theorem minByte_mem {qs : List Byte} (h : qs ≠ []) : minByte qs ∈ qs := by
  cases qs with
  | nil => exact absurd rfl h
  | cons b bs =>
    rcases foldl_min_mem bs b with heq | hmem
    · rw [minByte, heq]; exact List.mem_cons_self _ _
    · exact List.mem_cons.mpr (Or.inr (by rwa [minByte]))

theorem minByte_le {qs : List Byte} {x : Byte} (hx : x ∈ qs) : minByte qs ≤ x := by
  cases qs with
  | nil => simp at hx
  | cons b bs =>
    rcases List.mem_cons.mp hx with rfl | hmem
    · exact foldl_min_le bs x
    · exact foldl_min_le_mem bs b x hmem

theorem maxByte_mem {qs : List Byte} (h : qs ≠ []) : maxByte qs ∈ qs := by
  cases qs with
  | nil => exact absurd rfl h
  | cons b bs =>
    rcases foldl_max_mem bs b with heq | hmem
    · rw [maxByte, heq]; exact List.mem_cons_self _ _
    · exact List.mem_cons.mpr (Or.inr (by rwa [maxByte]))

theorem maxByte_ge {qs : List Byte} {x : Byte} (hx : x ∈ qs) : x ≤ maxByte qs := by
  cases qs with
  | nil => simp at hx
  | cons b bs =>
    rcases List.mem_cons.mp hx with rfl | hmem
    · exact foldl_max_ge bs x
    · exact foldl_max_ge_mem bs b x hmem

/-- The out-of-range test of `detect` agrees with "some byte lies outside
0x21..=0x7E" on non-empty quality strings. -/
theorem outside_iff_min_max {qs : List Byte} (h : qs ≠ []) :
    (∃ b ∈ qs, b < 33 ∨ 126 < b) ↔ (minByte qs < 33 ∨ 126 < maxByte qs) := by
  constructor
  · rintro ⟨b, hb, hlt | hgt⟩
    · exact Or.inl (Nat.lt_of_le_of_lt (minByte_le hb) hlt)
    · exact Or.inr (Nat.lt_of_lt_of_le hgt (maxByte_ge hb))
  · rintro (hlt | hgt)
    · exact ⟨minByte qs, minByte_mem h, Or.inl hlt⟩
    · exact ⟨maxByte qs, maxByte_mem h, Or.inr hgt⟩

/-- C7: on every non-empty quality string, `QualityEncoding::detect` returns
`Unknown` exactly when some byte lies outside 0x21..=0x7E, otherwise
`Phred33` when the minimum byte is below `';'` = 59, `Phred64` when the
minimum is at least `'@'` = 64 and the maximum exceeds `'h'` = 104, and
`Phred33` in all remaining cases; and the result depends only on the minimum
and maximum byte of the string. -/
theorem c7_detect_min_max (qs : List Byte) (h : qs ≠ []) :
    (QualityEncoding.detect qs =
      if ∃ b ∈ qs, b < 33 ∨ 126 < b then .unknown
      else if minByte qs < 59 then .phred33
      else if 64 ≤ minByte qs ∧ 104 < maxByte qs then .phred64
      else .phred33) ∧
    (∀ qs' : List Byte, minByte qs' = minByte qs → maxByte qs' = maxByte qs →
      QualityEncoding.detect qs' = QualityEncoding.detect qs) := by
  constructor
  · unfold QualityEncoding.detect
    by_cases hout : minByte qs < 33 ∨ 126 < maxByte qs
    · rw [if_pos hout, if_pos ((outside_iff_min_max h).mpr hout)]
    · rw [if_neg hout, if_neg (fun hc => hout ((outside_iff_min_max h).mp hc))]
  · intro qs' hmin hmax
    unfold QualityEncoding.detect
    rw [hmin, hmax]

/-- Witness for C7: two quality strings with equal minimum 64 and maximum 105
classify identically (as `Phred64`). -/
theorem c7_detect_min_max_witness :
    QualityEncoding.detect [64, 72, 105] = QualityEncoding.detect [64, 105] ∧
    QualityEncoding.detect [64, 105] = .phred64 :=
  ⟨(c7_detect_min_max [64, 105] (by decide)).2 [64, 72, 105] (by decide) (by decide),
   by decide⟩

/-- C1 (evidence for the code bug): on the S6 input the candidate-advance
loop of `find_record_boundaries`, probed at offset 8 (inside the first
record, which spans bytes 0..19), stops at offset 14 — the `'@'` that opens
the first record's quality line, merely because it is preceded by a newline —
so the chosen chunk boundary falls strictly inside a record; parsing the two
resulting chunks as `ParallelParser::parse` does loses both records, while
the sequential parser yields them. -/
theorem c1_boundary_splits_inside_record :
    boundaryAdvance s6Input (s6Input.length + 1) 8 = 14 ∧
    (8 < 19 ∧ 0 < 14 ∧ 14 < 19) ∧
    collectRecords (s6Input.length + 1) ⟨s6Input, 0, 1⟩ =
      [⟨[83, 69, 81, 95, 49], none, [65, 67, 71, 84], [64, 73, 73, 73]⟩,
       ⟨[83, 69, 81, 95, 50], none, [84, 71, 67, 65], [74, 74, 74, 74]⟩] ∧
    chunkRecords s6Input (0, 14) = [] ∧
    chunkRecords s6Input (14, 38) = [] := by
  decide

/-- C4: on an input whose only record is malformed (`"@SEQ_1\nACGT\n+\nIII\n"`,
a quality string one byte short), `ParallelParser::parse` returns
`Ok(vec![])` — the chunk's iterator mapped the `LengthMismatch` error to end
of iteration — whereas the claim requires the first parse error to be
returned; the sequential `parse_record` does report `LengthMismatch{4, 3}`. -/
theorem c4_parallel_parse_swallows_error :
    parallelParse s5Input 4 = .ok [] ∧
    parse_record ⟨s5Input, 0, 1⟩ = .error (.lengthMismatch 4 3) := by
  decide

/-- C5: on the input `"@id\n\n+\n\n"` — a record whose sequence is empty —
`parse_record` returns `Err(UnexpectedEof)` (the `seq_end == start` guard of
`read_sequence` fires), not `Ok(Some(record))` with empty seq and qual as the
claim states. -/
theorem c5_empty_seq_rejected :
    parse_record ⟨emptySeqInput, 0, 1⟩ = .error .unexpectedEof := by
  decide

/-- C2 (counterexample): on `"@id\nAC\nGT\n+\nIIIII\n"` the parser yields a
record whose `seq` is the raw slice `"AC\nGT"` — it contains the interior
newline byte 10, which is whitespace, so `seq` is not "exactly the
non-whitespace bytes between the header newline and the separator line". -/
theorem c2_counterexample_interior_newline :
    parse_record ⟨wrappedInput, 0, 1⟩ =
      .ok (some ⟨[105, 100], none, [65, 67, 10, 71, 84], [73, 73, 73, 73, 73]⟩,
           ⟨wrappedInput, 18, 6⟩) ∧
    (10 ∈ [65, 67, 10, 71, 84] ∧ isWs 10 = true) := by
  decide

/-- C6 (counterexample): for the header body `"a\tb c"` (a tab before a
space), `parse_header` splits at the space, returning id `"a\tb"` and desc
`"c"`, not at the earlier tab as the claim states. -/
theorem c6_counterexample_tab_before_space :
    parse_header [97, 9, 98, 32, 99] = .ok ([97, 9, 98], some [99]) ∧
    parse_header [97, 9, 98, 32, 99] ≠ .ok ([97], some [98, 32, 99]) := by
  decide

/-- When fewer than `expected` non-whitespace bytes remain, the counting scan
of `read_quality` runs off the end of the region having counted exactly the
non-whitespace bytes present, without the break firing. -/
theorem rqScan_exhausts (expected : Nat) :
    ∀ (l : List Byte) (i cnt qEnd nls : Nat), cnt + countNonWs l < expected →
      ∃ q n, rqScan expected l i cnt qEnd nls = (cnt + countNonWs l, q, n, false) := by
  intro l
  induction l with
  | nil =>
    intro i cnt qEnd nls _
    exact ⟨qEnd, nls, by simp [rqScan, countNonWs]⟩
  | cons b bs ih =>
    intro i cnt qEnd nls hlt
    by_cases hb : b = 10
    · subst hb
      have hws : countNonWs (10 :: bs) = countNonWs bs := by
        simp [countNonWs, List.filter, isWs]
      rw [hws] at hlt ⊢
      obtain ⟨q, n, hq⟩ := ih (i + 1) cnt qEnd (nls + 1) hlt
      exact ⟨q, n, by rw [rqScan, if_pos rfl]; exact hq⟩
    · by_cases hw : isWs b = false
      · have hws : countNonWs (b :: bs) = countNonWs bs + 1 := by
          simp [countNonWs, List.filter, hw]
        rw [hws] at hlt ⊢
        have hne : ¬ (cnt + 1 = expected) := by omega
        obtain ⟨q, n, hq⟩ := ih (i + 1) (cnt + 1) (i + 1) nls (by omega)
        refine ⟨q, n, ?_⟩
        rw [rqScan, if_neg hb, if_pos hw, if_neg hne]
        rw [hq]
        congr 1
        omega
      · have hws : countNonWs (b :: bs) = countNonWs bs := by
          simp only [countNonWs, List.filter]
          simp only [Bool.not_eq_false] at hw
          simp [hw]
        rw [hws] at hlt ⊢
        obtain ⟨q, n, hq⟩ := ih (i + 1) cnt qEnd nls hlt
        exact ⟨q, n, by rw [rqScan, if_neg hb, if_neg hw]; exact hq⟩

/-- C3: whenever fewer than `L` non-whitespace bytes remain after the cursor,
`read_quality` fails with `LengthMismatch{seq_len = L, qual_len = count of
non-whitespace bytes actually found}`; and on the S5 input
`"@SEQ_1\nACGT\n+\nIII\n"` the parser reports `LengthMismatch{4, 3}`. -/
theorem c3_length_mismatch (p : Parser) (L : Nat)
    (h : countNonWs (p.data.drop p.pos) < L) :
    read_quality p L = .error (.lengthMismatch L (countNonWs (p.data.drop p.pos))) ∧
    parse_record ⟨s5Input, 0, 1⟩ = .error (.lengthMismatch 4 3) := by
  refine ⟨?_, by decide⟩
  obtain ⟨q, n, hq⟩ := rqScan_exhausts L (p.data.drop p.pos) p.pos 0 p.pos 0
    (by simpa using h)
  simp only [read_quality, hq]
  rw [if_pos (by omega : 0 + countNonWs (p.data.drop p.pos) ≠ L)]
  simp

/-- Witness for C3: a region holding only `"III\n"` has 3 non-whitespace
bytes, so asking for 4 quality bytes fails with `LengthMismatch{4, 3}`. -/
theorem c3_length_mismatch_witness :
    read_quality ⟨[73, 73, 73, 10], 0, 1⟩ 4 = .error (.lengthMismatch 4 3) := by
  have := (c3_length_mismatch ⟨[73, 73, 73, 10], 0, 1⟩ 4 (by decide)).1
  simpa using this

theorem byteAt_mem {l : List Byte} {k : Nat} (h : k < l.length) : byteAt l k ∈ l := by
  rw [byteAt, List.getD_eq_getElem l 0 h]
  exact List.getElem_mem h

theorem drop_pos_le {p : Parser} {s : List Byte}
    (hd : p.data.drop p.pos = s) (hne : s ≠ []) : p.pos < p.data.length := by
  by_contra hc
  push_neg at hc
  rw [List.drop_eq_nil_of_le hc] at hd
  exact hne hd.symm

/-- On a region whose remainder is `s ++ "\n+" ++ rest` with `s` a non-empty
run of non-whitespace bytes, `read_sequence` returns exactly `s` and leaves
the cursor on the separator's `'+'`. -/
theorem read_sequence_single_line (p : Parser) (s rest : List Byte)
    (hd : p.data.drop p.pos = s ++ 10 :: 43 :: rest)
    (hne : s ≠ []) (hnw : ∀ b ∈ s, isWs b = false) :
    read_sequence p =
      .ok (s, { p with pos := p.pos + s.length + 1, line := p.line + 1 }) := by
  have h10 : (10 : Byte) ∉ s := fun hmem => by
    have := hnw 10 hmem; simp [isWs] at this
  have hposlt : p.pos < p.data.length :=
    drop_pos_le hd (by simp)
  have hlen : p.data.length = p.pos + s.length + 2 + rest.length := by
    have hlen0 := congrArg List.length hd
    rw [List.length_drop] at hlen0
    simp only [List.length_append, List.length_cons] at hlen0
    omega
  have hfc : find_char p.data 10 p.pos = some (p.pos + s.length) := by
    unfold find_char
    rw [hd, firstIdx_append, firstIdx_eq_none_of_not_mem h10]
    simp [firstIdx]
  have hat : byteAt p.data (p.pos + s.length + 1) = 43 := by
    have heq : p.pos + s.length + 1 = p.pos + (s.length + 1) := by omega
    rw [heq, byteAt_drop, hd]
    have := byteAt_append_right s (10 :: 43 :: rest) 1
    simpa [byteAt] using this
  have hlast : lastNonWs p.data p.pos (p.pos + s.length) = some (p.pos + s.length - 1) := by
    obtain ⟨k, hk⟩ : ∃ k, s.length = k + 1 := by
      cases s with
      | nil => exact absurd rfl hne
      | cons a as => exact ⟨as.length, by simp⟩
    rw [hk, show p.pos + (k + 1) = (p.pos + k) + 1 by omega]
    rw [lastNonWs]
    rw [if_neg (by omega : ¬ (p.pos + k < p.pos))]
    have hb : byteAt p.data (p.pos + k) = byteAt s k := by
      rw [byteAt_drop, hd, byteAt_append_left s _ k (by omega)]
    have hmemk : byteAt s k ∈ s := byteAt_mem (by omega)
    rw [if_pos (by rw [hb]; exact hnw _ hmemk)]
    simp
  have hslen : s.length ≠ 0 := by simpa using hne
  have hloop : readSeqLoop p.data p.pos (p.data.length + 1) p.pos p.line p.pos
      = (p.pos + s.length, p.pos + s.length + 1, p.line + 1) := by
    rw [readSeqLoop, hfc]
    dsimp only
    rw [if_pos ⟨by omega, hat⟩, hlast]
    dsimp only
    rw [show p.pos + s.length - 1 + 1 = p.pos + s.length by omega]
    rw [if_neg (by omega : ¬ (p.pos + s.length = p.pos))]
  unfold read_sequence
  dsimp only
  rw [hloop]
  dsimp only
  rw [if_neg (by omega : ¬ (p.pos + s.length = p.pos))]
  have hsl : slice p.data p.pos (p.pos + s.length) = s := by
    unfold slice
    rw [hd, Nat.add_sub_cancel_left]
    exact List.take_left s _
  rw [hsl]

/-- C2 (amended): when the bytes between the header line's newline and the
separator line form a single physical line of non-whitespace bytes, the
`seq` read by the parser is exactly those non-whitespace bytes, in order.
No whitespace-exclusion holds in general: a wrapped sequence keeps its
interior newlines in the returned slice, and a sequence region consisting
only of whitespace lines (`"@id\n \n \n+\nI\n"`) yields `seq = " "` — the
stale `seq_end` from the first loop iteration — so whitespace can even be
the whole of `seq`. -/
theorem c2_seq_single_line (p : Parser) (s rest : List Byte)
    (hd : p.data.drop p.pos = s ++ 10 :: 43 :: rest)
    (hne : s ≠ []) (hnw : ∀ b ∈ s, isWs b = false) :
    read_sequence p =
      .ok (s, { p with pos := p.pos + s.length + 1, line := p.line + 1 }) ∧
    (∀ b ∈ s, isWs b = false) ∧
    parse_record ⟨wsSeqInput, 0, 1⟩ =
      .ok (some ⟨[105, 100], none, [32], [73]⟩, ⟨wsSeqInput, 12, 6⟩) :=
  ⟨read_sequence_single_line p s rest hd hne hnw, hnw, by decide⟩

/-- Witness for the amended C2 at `"ACGT\n+\nIIII"`: the sequence is read as
exactly `"ACGT"`. -/
theorem c2_seq_single_line_witness :
    read_sequence ⟨[65, 67, 71, 84, 10, 43, 10, 73, 73, 73, 73], 0, 1⟩ =
      .ok ([65, 67, 71, 84], ⟨[65, 67, 71, 84, 10, 43, 10, 73, 73, 73, 73], 5, 2⟩) := by
  have := (c2_seq_single_line ⟨[65, 67, 71, 84, 10, 43, 10, 73, 73, 73, 73], 0, 1⟩
    [65, 67, 71, 84] [10, 73, 73, 73, 73] (by decide) (by decide) (by decide)).1
  simpa using this

/-- C9: every record `parse_record` yields (as `Ok(Some(record))`) satisfies
`len(seq) == len(qual)`; the final length guard of `parse_record` makes any
violating record impossible. -/
theorem c9_yielded_record_lengths (p : Parser) (r : Record) (p' : Parser)
    (h : parse_record p = .ok (some r, p')) :
    r.seq.length = r.qual.length := by
  unfold parse_record at h
  dsimp only at h
  repeat' split at h
  all_goals simp at h
  obtain ⟨h1, h2⟩ := h
  subst h1
  dsimp only
  omega

/-- Witness for C9 at a concrete single-record input. -/
theorem c9_yielded_record_lengths_witness :
    (Record.mk [83, 69, 81, 95, 49] none [65, 67, 71, 84] [73, 73, 73, 73]).seq.length =
    (Record.mk [83, 69, 81, 95, 49] none [65, 67, 71, 84] [73, 73, 73, 73]).qual.length :=
  c9_yielded_record_lengths
    ⟨[64, 83, 69, 81, 95, 49, 10, 65, 67, 71, 84, 10, 43, 10, 73, 73, 73, 73, 10], 0, 1⟩
    ⟨[83, 69, 81, 95, 49], none, [65, 67, 71, 84], [73, 73, 73, 73]⟩
    ⟨[64, 83, 69, 81, 95, 49, 10, 65, 67, 71, 84, 10, 43, 10, 73, 73, 73, 73, 10], 19, 5⟩
    (by decide)

theorem firstIdx_eq_some_of_least {l : List Byte} {t : Byte} {i : Nat}
    (h1 : l[i]? = some t) (h2 : ∀ j : Nat, j < i → l[j]? ≠ some t) :
    firstIdx l t = some i := by
  cases hfi : firstIdx l t with
  | none => exact absurd h1 (firstIdx_none_spec hfi i)
  | some k =>
    obtain ⟨hk1, hk2⟩ := firstIdx_some_spec hfi
    rcases Nat.lt_trichotomy k i with hlt | heq | hgt
    · exact absurd hk1 (h2 k hlt)
    · rw [heq]
    · exact absurd h1 (hk2 i hgt)

/-- C6 (amended): `parse_header` splits the header body at the first space
if the body contains any space; only when no space occurs anywhere does it
split at the first tab; with neither present the whole body is the id and
the description is absent.  (A tab before a space is NOT the split point.) -/
theorem c6_header_split_space_priority (hdr : List Byte) :
    (∀ i : Nat, hdr[i]? = some 32 → (∀ j : Nat, j < i → hdr[j]? ≠ some 32) →
      parse_header hdr = .ok (hdr.take i, some (hdr.drop (i + 1)))) ∧
    ((32 : Byte) ∉ hdr → ∀ i : Nat, hdr[i]? = some 9 →
      (∀ j : Nat, j < i → hdr[j]? ≠ some 9) →
      parse_header hdr = .ok (hdr.take i, some (hdr.drop (i + 1)))) ∧
    ((32 : Byte) ∉ hdr → (9 : Byte) ∉ hdr → parse_header hdr = .ok (hdr, none)) := by
  refine ⟨?_, ?_, ?_⟩
  · intro i h1 h2
    unfold parse_header find_char
    rw [List.drop_zero, firstIdx_eq_some_of_least h1 h2]
    simp
  · intro hno i h1 h2
    unfold parse_header find_char
    rw [List.drop_zero, firstIdx_eq_none_of_not_mem hno,
      firstIdx_eq_some_of_least h1 h2]
    simp
  · intro hno32 hno9
    unfold parse_header find_char
    rw [List.drop_zero, firstIdx_eq_none_of_not_mem hno32,
      firstIdx_eq_none_of_not_mem hno9]
    simp

/-- Witness for the amended C6: the body `"a b"` splits at the space at
index 1. -/
theorem c6_header_split_space_priority_witness :
    parse_header [97, 32, 98] = .ok ([97], some [98]) := by
  have := (c6_header_split_space_priority [97, 32, 98]).1 1 (by decide)
    (by decide)
  simpa using this

theorem find_char_split {data : List Byte} {pos : Nat} {a b : List Byte} {t : Byte}
    (hd : data.drop pos = a ++ t :: b) (hnot : t ∉ a) :
    find_char data t pos = some (pos + a.length) := by
  unfold find_char
  rw [hd, firstIdx_append, firstIdx_eq_none_of_not_mem hnot]
  simp [firstIdx]

theorem drop_add (data : List Byte) (pos k : Nat) :
    data.drop (pos + k) = (data.drop pos).drop k := by
  rw [List.drop_drop, Nat.add_comm]

theorem getLast?_eq_byteAt {l : List Byte} (hne : l ≠ []) :
    l.getLast? = some (byteAt l (l.length - 1)) := by
  obtain ⟨l', b, rfl⟩ := List.eq_nil_or_concat l |>.resolve_left hne
  rw [List.concat_eq_append, List.getLast?_concat]
  have hlen : (l' ++ [b]).length - 1 = l'.length + 0 := by simp
  rw [hlen, byteAt_append_right]
  rfl

/-- `read_line` on a region whose remainder starts with a newline-free line
`hl` not ending in a carriage return: the line is returned verbatim and the
cursor moves past its newline. -/
theorem read_line_exact (p : Parser) (hl rest : List Byte)
    (hd : p.data.drop p.pos = hl ++ 10 :: rest)
    (h10 : (10 : Byte) ∉ hl)
    (h13 : hl.getLast? ≠ some 13) :
    read_line p = .ok (hl, { p with pos := p.pos + hl.length + 1, line := p.line + 1 }) := by
  have hfc : find_char p.data 10 p.pos = some (p.pos + hl.length) :=
    find_char_split hd h10
  unfold read_line
  rw [hfc]
  dsimp only
  have hcond : ¬ (p.pos + hl.length > p.pos ∧ byteAt p.data (p.pos + hl.length - 1) = 13) := by
    rintro ⟨hgt, heq13⟩
    have hlne : hl ≠ [] := by
      intro hnil; rw [hnil] at hgt; simp at hgt
    have hlen1 : 1 ≤ hl.length := by
      cases hl with
      | nil => exact absurd rfl hlne
      | cons a as => simp
    have hb : byteAt p.data (p.pos + hl.length - 1) = byteAt hl (hl.length - 1) := by
      rw [show p.pos + hl.length - 1 = p.pos + (hl.length - 1) by omega]
      rw [byteAt_drop, hd, byteAt_append_left hl _ _ (by omega)]
    rw [hb] at heq13
    exact h13 (by rw [getLast?_eq_byteAt hlne, heq13])
  rw [if_neg hcond]
  have hsl : slice p.data p.pos (p.pos + hl.length) = hl := by
    unfold slice
    rw [hd, Nat.add_sub_cancel_left]
    exact List.take_left hl _
  rw [hsl]

/-- `parse_header` on an encoded header body reconstructs the id and the
optional description. -/
theorem parse_header_encoded (recId : List Byte) (desc : Option (List Byte))
    (hid : ∀ b ∈ recId, isWs b = false) :
    parse_header (recId ++ (match desc with | none => [] | some d => 32 :: d)) =
      .ok (recId, desc) := by
  have h32 : (32 : Byte) ∉ recId := fun hmem => by
    have := hid 32 hmem; simp [isWs] at this
  have h9 : (9 : Byte) ∉ recId := fun hmem => by
    have := hid 9 hmem; simp [isWs] at this
  cases desc with
  | none =>
    unfold parse_header find_char
    rw [List.append_nil, List.drop_zero,
      firstIdx_eq_none_of_not_mem h32, firstIdx_eq_none_of_not_mem h9]
    simp
  | some d =>
    unfold parse_header find_char
    rw [List.drop_zero, firstIdx_append, firstIdx_eq_none_of_not_mem h32]
    have h0 : firstIdx (32 :: d) 32 = some 0 := by simp [firstIdx]
    rw [h0]
    simp only [Option.map_some', Nat.zero_add]
    rw [List.take_left recId _]
    have hdrop : (recId ++ 32 :: d).drop (recId.length + 1) = d := by
      rw [show recId ++ 32 :: d = (recId ++ [32]) ++ d by simp]
      rw [show recId.length + 1 = (recId ++ [32]).length by simp]
      exact List.drop_left _ _
    rw [hdrop]

/-- The counting scan of `read_quality`, fed exactly the expected run of
non-whitespace bytes followed by anything, breaks at the end of the run. -/
theorem rqScan_exact (L : Nat) :
    ∀ (q t : List Byte) (i cnt qEnd nls : Nat),
      (∀ b ∈ q, isWs b = false) → cnt + q.length = L → cnt < L →
      rqScan L (q ++ t) i cnt qEnd nls = (L, i + q.length, nls, true) := by
  intro q
  induction q with
  | nil =>
    intro t i cnt qEnd nls _ hlen hlt
    simp at hlen
    omega
  | cons b bs ih =>
    intro t i cnt qEnd nls hws hlen hlt
    have hbws : isWs b = false := hws b (List.mem_cons_self _ _)
    have hb10 : b ≠ 10 := fun hb => by rw [hb] at hbws; simp [isWs] at hbws
    rw [List.cons_append, rqScan, if_neg hb10, if_pos hbws]
    by_cases hfin : cnt + 1 = L
    · have hbs : bs = [] := by
        have : bs.length = 0 := by
          simp only [List.length_cons] at hlen
          omega
        exact List.eq_nil_of_length_eq_zero this
      rw [if_pos hfin, hbs]
      simp [hfin]
    · rw [if_neg hfin]
      have hih := ih t (i + 1) (cnt + 1) (i + 1) nls
        (fun x hx => hws x (List.mem_cons_of_mem _ hx))
        (by simp only [List.length_cons] at hlen; omega)
        (by omega)
      rw [hih]
      have harith : i + 1 + bs.length = i + (bs.length + 1) := by omega
      simp [List.length_cons, harith]

/-- `read_quality` on a region whose remainder is exactly the quality run
(non-whitespace, non-empty) followed by either nothing or a newline: it
returns the run and consumes the newline when present. -/
theorem read_quality_exact (p : Parser) (q t : List Byte) (L : Nat) (hL : L = q.length)
    (hd : p.data.drop p.pos = q ++ t)
    (hws : ∀ b ∈ q, isWs b = false) (hne : q ≠ [])
    (ht : t = [] ∨ ∃ t0, t = 10 :: t0) :
    read_quality p L =
      .ok (q, { p with pos := p.pos + q.length + (if t = [] then 0 else 1),
                       line := p.line + (if t = [] then 0 else 1) }) := by
  subst hL
  have hqlen0 : q.length ≠ 0 := by simpa using hne
  have hscan : rqScan q.length (p.data.drop p.pos) p.pos 0 p.pos 0 =
      (q.length, p.pos + q.length, 0, true) := by
    rw [hd]
    exact rqScan_exact q.length q t p.pos 0 p.pos 0 hws (by omega) (by omega)
  have hdropq : p.data.drop (p.pos + q.length) = t := by
    rw [drop_add, hd]
    rw [show q.length = q.length from rfl]
    exact List.drop_left q t
  have hsl : slice p.data p.pos (p.pos + q.length) = q := by
    unfold slice
    rw [hd, Nat.add_sub_cancel_left]
    exact List.take_left q _
  unfold read_quality
  dsimp only
  rw [hscan]
  dsimp only
  rw [if_neg (by omega : ¬ q.length ≠ q.length)]
  rw [hsl]
  rcases ht with rfl | ⟨t0, rfl⟩
  · simp [hdropq, skipTrailingWs]
  · have hsk : skipTrailingWs (10 :: t0) = (1, 1) := by
      simp [skipTrailingWs, isWs]
    simp [hdropq, hsk]

theorem getLast?_append_right {a b : List Byte} (h : b ≠ []) :
    (a ++ b).getLast? = b.getLast? := by
  rw [List.getLast?_append, getLast?_eq_byteAt h]
  rfl

theorem getLast?_ne_13_of {l : List Byte} (hne : l ≠ []) (h : ∀ b ∈ l, b ≠ 13) :
    l.getLast? ≠ some 13 := by
  rw [getLast?_eq_byteAt hne]
  intro hc
  have hlt : l.length - 1 < l.length := by
    cases l with
    | nil => exact absurd rfl hne
    | cons x xs => simp
  exact h _ (byteAt_mem hlt) (by injection hc)

theorem skipWsLoop_head {b : Byte} (l : List Byte) (h : isWs b = false) :
    skipWsLoop (b :: l) = (0, 0) := by
  simp [skipWsLoop, h]

/-- `parse_record` on a region whose remainder is a well-formed encoded
record followed by nothing or by a newline and more data: the record is
reconstructed field-for-field and the cursor advances past it (and past the
newline when present). -/
theorem parse_record_encoded (p : Parser) (r : Record) (t : List Byte)
    (hw : WfRec r)
    (hd : p.data.drop p.pos = encCore r ++ t)
    (ht : t = [] ∨ ∃ t0, t = 10 :: t0) :
    parse_record p =
      .ok (some r, { p with
        pos := p.pos + (encCore r).length + (if t = [] then 0 else 1),
        line := p.line + 3 + (if t = [] then 0 else 1) }) := by
  obtain ⟨rid, rdesc, rseq, rqual⟩ := r
  obtain ⟨hidne, hidws, hdesc, hseqne, hseqws, hqualws, hqlen⟩ := hw
  have hd1 : p.data.drop p.pos
      = encHeader ⟨rid, rdesc, rseq, rqual⟩ ++ 10 :: (rseq ++ 10 :: 43 :: 10 :: (rqual ++ t)) := by
    rw [hd]
    simp [encCore, List.append_assoc]
  have hAform : encHeader ⟨rid, rdesc, rseq, rqual⟩ =
      64 :: (rid ++ (match rdesc with | none => [] | some d => 32 :: d)) := by
    simp [encHeader]
  have hA10 : (10 : Byte) ∉ encHeader ⟨rid, rdesc, rseq, rqual⟩ := by
    rw [hAform]
    simp only [List.mem_cons, List.mem_append, not_or]
    refine ⟨by decide, ?_, ?_⟩
    · intro hid
      have := hidws 10 hid; simp [isWs] at this
    · cases rdesc with
      | none => simp
      | some d =>
        simp only at hdesc
        simp only [List.mem_cons, not_or]
        exact ⟨by decide, hdesc.1⟩
  have hAlast : (encHeader ⟨rid, rdesc, rseq, rqual⟩).getLast? ≠ some 13 := by
    rw [hAform]
    cases rdesc with
    | none =>
      simp only [List.append_nil]
      rw [show (64 :: rid : List Byte) = [64] ++ rid by simp]
      rw [getLast?_append_right hidne]
      exact getLast?_ne_13_of hidne (fun b hb => by
        have := hidws b hb; intro hc; rw [hc] at this; simp [isWs] at this)
    | some d =>
      simp only
      cases hdcase : d with
      | nil =>
        rw [show (64 :: (rid ++ [32]) : List Byte) = (64 :: rid) ++ [32] by simp]
        rw [List.getLast?_concat]
        decide
      | cons d0 ds =>
        simp only at hdesc
        rw [show (64 :: (rid ++ 32 :: (d0 :: ds)) : List Byte)
            = (64 :: (rid ++ [32])) ++ (d0 :: ds) by simp]
        rw [getLast?_append_right (by simp)]
        refine getLast?_ne_13_of (by simp) (fun b hb => ?_)
        intro hc
        rw [hc] at hb
        rw [hdcase] at hdesc
        exact hdesc.2 hb
  have hposlt : p.pos < p.data.length :=
    drop_pos_le hd1 (by rw [hAform]; simp)
  have hskip : skipWsLoop (p.data.drop p.pos) = (0, 0) := by
    rw [hd1, hAform, List.cons_append]
    exact skipWsLoop_head _ (by decide)
  have hrl1 : read_line ⟨p.data, p.pos, p.line⟩ =
      .ok (encHeader ⟨rid, rdesc, rseq, rqual⟩,
        ⟨p.data, p.pos + (encHeader ⟨rid, rdesc, rseq, rqual⟩).length + 1, p.line + 1⟩) :=
    read_line_exact ⟨p.data, p.pos, p.line⟩ _ _ hd1 hA10 hAlast
  have hd2 : p.data.drop (p.pos + (encHeader ⟨rid, rdesc, rseq, rqual⟩).length + 1)
      = rseq ++ 10 :: 43 :: (10 :: (rqual ++ t)) := by
    rw [show p.pos + (encHeader ⟨rid, rdesc, rseq, rqual⟩).length + 1
        = p.pos + ((encHeader ⟨rid, rdesc, rseq, rqual⟩).length + 1) by omega]
    rw [drop_add, hd1]
    rw [show encHeader ⟨rid, rdesc, rseq, rqual⟩ ++ 10 :: (rseq ++ 10 :: 43 :: 10 :: (rqual ++ t))
        = (encHeader ⟨rid, rdesc, rseq, rqual⟩ ++ [10]) ++ (rseq ++ 10 :: 43 :: (10 :: (rqual ++ t)))
        by simp]
    rw [show (encHeader ⟨rid, rdesc, rseq, rqual⟩).length + 1
        = (encHeader ⟨rid, rdesc, rseq, rqual⟩ ++ [10]).length by simp]
    exact List.drop_left _ _
  have hrs : read_sequence
        ⟨p.data, p.pos + (encHeader ⟨rid, rdesc, rseq, rqual⟩).length + 1, p.line + 1⟩ =
      .ok (rseq, ⟨p.data,
        p.pos + (encHeader ⟨rid, rdesc, rseq, rqual⟩).length + 1 + rseq.length + 1,
        p.line + 1 + 1⟩) :=
    read_sequence_single_line _ rseq (10 :: (rqual ++ t)) hd2 hseqne hseqws
  have hd3 : p.data.drop
        (p.pos + (encHeader ⟨rid, rdesc, rseq, rqual⟩).length + 1 + rseq.length + 1)
      = 43 :: (10 :: (rqual ++ t)) := by
    rw [show p.pos + (encHeader ⟨rid, rdesc, rseq, rqual⟩).length + 1 + rseq.length + 1
        = p.pos + (encHeader ⟨rid, rdesc, rseq, rqual⟩).length + 1 + (rseq.length + 1) by omega]
    rw [drop_add, hd2]
    rw [show rseq ++ 10 :: 43 :: (10 :: (rqual ++ t))
        = (rseq ++ [10]) ++ (43 :: (10 :: (rqual ++ t))) by simp]
    rw [show rseq.length + 1 = (rseq ++ [10]).length by simp]
    exact List.drop_left _ _
  have hrl2 : read_line
        ⟨p.data, p.pos + (encHeader ⟨rid, rdesc, rseq, rqual⟩).length + 1 + rseq.length + 1,
         p.line + 1 + 1⟩ =
      .ok ([43], ⟨p.data,
        p.pos + (encHeader ⟨rid, rdesc, rseq, rqual⟩).length + 1 + rseq.length + 1 + 1 + 1,
        p.line + 1 + 1 + 1⟩) :=
    read_line_exact _ [43] (rqual ++ t) (by rw [hd3]; rfl) (by decide) (by decide)
  have hd4 : p.data.drop
        (p.pos + (encHeader ⟨rid, rdesc, rseq, rqual⟩).length + 1 + rseq.length + 1 + 1 + 1)
      = rqual ++ t := by
    rw [show p.pos + (encHeader ⟨rid, rdesc, rseq, rqual⟩).length + 1 + rseq.length + 1 + 1 + 1
        = p.pos + (encHeader ⟨rid, rdesc, rseq, rqual⟩).length + 1 + rseq.length + 1 + 2 by omega]
    rw [drop_add, hd3]
    rfl
  have hqualne : rqual ≠ [] := by
    intro hc
    rw [hc] at hqlen
    simp at hqlen
    exact hseqne (List.eq_nil_of_length_eq_zero hqlen.symm)
  have hrq2 : read_quality
        ⟨p.data, p.pos + (encHeader ⟨rid, rdesc, rseq, rqual⟩).length + 1 + rseq.length + 1 + 1 + 1,
         p.line + 1 + 1 + 1⟩ rseq.length =
      .ok (rqual, ⟨p.data,
        p.pos + (encHeader ⟨rid, rdesc, rseq, rqual⟩).length + 1 + rseq.length + 1 + 1 + 1
          + rqual.length + (if t = [] then 0 else 1),
        p.line + 1 + 1 + 1 + (if t = [] then 0 else 1)⟩) :=
    read_quality_exact _ rqual t rseq.length hqlen.symm hd4 hqualws hqualne ht
  unfold parse_record
  dsimp only
  rw [if_neg (show ¬ p.data.length ≤ p.pos by omega)]
  rw [hskip]
  dsimp only
  simp only [Nat.add_zero]
  rw [if_neg (show ¬ p.data.length ≤ p.pos by omega)]
  rw [hrl1]
  dsimp only
  rw [hAform]
  simp only [List.isEmpty_cons, List.headD_cons, List.drop_succ_cons, List.drop_zero]
  rw [if_neg (by simp)]
  rw [if_neg (show ¬ (64 : Byte) ≠ 64 by simp)]
  rw [parse_header_encoded rid rdesc hidws]
  dsimp only
  rw [← hAform, hrs]
  dsimp only
  rw [hrl2]
  dsimp only
  rw [if_neg (by simp : ¬ (([43] : List Byte).isEmpty = true ∨ ([43] : List Byte).headD 0 ≠ 43))]
  rw [hrq2]
  dsimp only
  rw [if_neg (show ¬ rseq.length ≠ rqual.length by simp [hqlen.symm])]
  have hcl : (encCore ⟨rid, rdesc, rseq, rqual⟩).length
      = (encHeader ⟨rid, rdesc, rseq, rqual⟩).length + rseq.length + rqual.length + 4 := by
    simp [encCore]
    omega
  generalize (if t = [] then 0 else 1 : Nat) = dlt
  simp only [Except.ok.injEq, Prod.mk.injEq, Parser.mk.injEq, true_and]
  constructor
  · rw [hcl]; omega
  · trivial

theorem parse_record_at_end (p : Parser) (h : p.data.length ≤ p.pos) :
    parse_record p = .ok (none, p) := by
  unfold parse_record
  rw [if_pos h]

theorem collectRecords_at_end (fuel : Nat) (p : Parser) (h : p.data.length ≤ p.pos) :
    collectRecords fuel p = [] := by
  cases fuel with
  | zero => rfl
  | succ f => simp [collectRecords, nextRecord, parse_record_at_end p h]

theorem encodeAll_cons (r : Record) (rs : List Record) :
    encodeAll (r :: rs) = encCore r ++ 10 :: encodeAll rs := by
  simp [encodeAll, encRec]

theorem collect_encoded : ∀ (rs : List Record) (p : Parser) (fuel : Nat),
    (∀ r ∈ rs, WfRec r) → p.data.drop p.pos = encodeAll rs →
    rs.length < fuel → collectRecords fuel p = rs := by
  intro rs
  induction rs with
  | nil =>
    intro p fuel _ hd _
    apply collectRecords_at_end
    have hnil : p.data.drop p.pos = [] := by simpa [encodeAll] using hd
    rwa [List.drop_eq_nil_iff] at hnil
  | cons r rest ih =>
    intro p fuel hw hd hfuel
    cases fuel with
    | zero => simp at hfuel
    | succ f =>
      have hwr : WfRec r := hw r (List.mem_cons_self _ _)
      have hd' : p.data.drop p.pos = encCore r ++ (10 :: encodeAll rest) := by
        rw [hd, encodeAll_cons]
      have hstep := parse_record_encoded p r (10 :: encodeAll rest) hwr hd'
        (Or.inr ⟨_, rfl⟩)
      rw [if_neg (by simp : ¬ (10 :: encodeAll rest : List Byte) = [])] at hstep
      unfold collectRecords nextRecord
      rw [hstep]
      dsimp only
      congr 1
      apply ih
      · exact fun x hx => hw x (List.mem_cons_of_mem _ hx)
      · show p.data.drop (p.pos + (encCore r).length + 1) = encodeAll rest
        rw [show p.pos + (encCore r).length + 1 = p.pos + ((encCore r).length + 1) by omega]
        rw [drop_add, hd']
        rw [show encCore r ++ 10 :: encodeAll rest
            = (encCore r ++ [10]) ++ encodeAll rest by simp]
        rw [show (encCore r).length + 1 = (encCore r ++ [10]).length by simp]
        exact List.drop_left _ _
      · simp only [List.length_cons] at hfuel
        omega

theorem collect_encoded_nofinal : ∀ (rs : List Record) (p : Parser) (fuel : Nat),
    rs ≠ [] → (∀ r ∈ rs, WfRec r) → p.data.drop p.pos = encodeAllNoFinal rs →
    rs.length < fuel → collectRecords fuel p = rs := by
  intro rs
  induction rs with
  | nil => intro p fuel hne; exact absurd rfl hne
  | cons r rest ih =>
    intro p fuel _ hw hd hfuel
    cases fuel with
    | zero => simp at hfuel
    | succ f =>
      have hwr : WfRec r := hw r (List.mem_cons_self _ _)
      cases hrest : rest with
      | nil =>
        subst hrest
        have hd' : p.data.drop p.pos = encCore r ++ [] := by
          rw [hd]; simp [encodeAllNoFinal]
        have hstep := parse_record_encoded p r [] hwr hd' (Or.inl rfl)
        rw [if_pos rfl] at hstep
        unfold collectRecords nextRecord
        rw [hstep]
        dsimp only
        congr 1
        apply collectRecords_at_end
        show p.data.length ≤ p.pos + (encCore r).length + 0
        have hlen := congrArg List.length hd'
        rw [List.length_drop] at hlen
        simp only [List.append_nil] at hlen
        have hcore : (encCore r).length ≠ 0 := by
          simp [encCore, encHeader]
        omega
      | cons r2 rest2 =>
        subst hrest
        have hd' : p.data.drop p.pos
            = encCore r ++ (10 :: encodeAllNoFinal (r2 :: rest2)) := by
          rw [hd]
          show encRec r ++ encodeAllNoFinal (r2 :: rest2) = _
          simp [encRec]
        have hstep := parse_record_encoded p r (10 :: encodeAllNoFinal (r2 :: rest2)) hwr hd'
          (Or.inr ⟨_, rfl⟩)
        rw [if_neg (by simp : ¬ (10 :: encodeAllNoFinal (r2 :: rest2) : List Byte) = [])]
          at hstep
        unfold collectRecords nextRecord
        rw [hstep]
        dsimp only
        congr 1
        apply ih
        · simp
        · exact fun x hx => hw x (List.mem_cons_of_mem _ hx)
        · show p.data.drop (p.pos + (encCore r).length + 1) = encodeAllNoFinal (r2 :: rest2)
          rw [show p.pos + (encCore r).length + 1 = p.pos + ((encCore r).length + 1) by omega]
          rw [drop_add, hd']
          rw [show encCore r ++ 10 :: encodeAllNoFinal (r2 :: rest2)
              = (encCore r ++ [10]) ++ encodeAllNoFinal (r2 :: rest2) by simp]
          rw [show (encCore r).length + 1 = (encCore r ++ [10]).length by simp]
          exact List.drop_left _ _
        · simp only [List.length_cons] at hfuel ⊢
          omega

theorem encodeAll_eq_nofinal_concat : ∀ (rs : List Record), rs ≠ [] →
    encodeAll rs = encodeAllNoFinal rs ++ [10] := by
  intro rs
  induction rs with
  | nil => intro h; exact absurd rfl h
  | cons r rest ih =>
    intro _
    cases hrest : rest with
    | nil =>
      subst hrest
      simp [encodeAll, encodeAllNoFinal, encRec]
    | cons r2 rest2 =>
      subst hrest
      rw [show encodeAll (r :: r2 :: rest2) = encRec r ++ encodeAll (r2 :: rest2)
          by simp [encodeAll]]
      rw [ih (by simp)]
      show _ = encRec r ++ encodeAllNoFinal (r2 :: rest2) ++ [10]
      simp [List.append_assoc]

/-- C10: for every non-empty list of well-formed single-line records, the
encoded input ends in a newline, the parser yields exactly those records,
and removing that final newline leaves the yielded record sequence
unchanged — `read_quality` stops as soon as it has counted `len(seq)`
non-whitespace bytes, even at end of input. -/
theorem c10_trailing_newline_removable (rs : List Record)
    (h1 : rs ≠ []) (h2 : ∀ r ∈ rs, WfRec r) :
    (encodeAll rs).getLast? = some 10 ∧
    collectRecords (rs.length + 1) ⟨encodeAll rs, 0, 1⟩ = rs ∧
    collectRecords (rs.length + 1) ⟨(encodeAll rs).dropLast, 0, 1⟩ = rs := by
  have hconcat := encodeAll_eq_nofinal_concat rs h1
  refine ⟨?_, ?_, ?_⟩
  · rw [hconcat, List.getLast?_concat]
  · exact collect_encoded rs ⟨encodeAll rs, 0, 1⟩ (rs.length + 1) h2 (by simp) (by omega)
  · rw [hconcat, List.dropLast_concat]
    exact collect_encoded_nofinal rs ⟨encodeAllNoFinal rs, 0, 1⟩ (rs.length + 1) h1 h2
      (by simp) (by omega)

/-- Witness for C10 on the single record `"@id\nA\nI\n"`-style input
`"@id\nA\n+\nI\n"`: the parse is unchanged when the final newline is cut. -/
theorem c10_trailing_newline_removable_witness :
    (encodeAll [⟨[105, 100], none, [65], [73]⟩]).getLast? = some 10 ∧
    collectRecords 2 ⟨encodeAll [⟨[105, 100], none, [65], [73]⟩], 0, 1⟩ =
      [⟨[105, 100], none, [65], [73]⟩] ∧
    collectRecords 2 ⟨(encodeAll [⟨[105, 100], none, [65], [73]⟩]).dropLast, 0, 1⟩ =
      [⟨[105, 100], none, [65], [73]⟩] :=
  c10_trailing_newline_removable [⟨[105, 100], none, [65], [73]⟩] (by decide) (by decide)

end FastqProof
